import Mathlib

/-!
Shallow embedding of the sablier-labs/price-data fetch-and-merge pipeline.

The repository contains several revisions of the same utilities; each is
embedded in its own namespace, faithful to its source file:

* `CryptoTsv`  — `src/cli/fetch-crypto/tsv-utils.ts` (overwrite policy):
  `mergeEntries` keyed by date with a target-month scope and a
  `changedCount`; `updateTsvFile` persists only when `changedCount` is
  nonzero.
* `CryptoFill` — the later fill-only revision of the same file: dates
  already present in the target month are never replaced.
* `ForexTsv`   — `src/cli/fetch-forex/tsv-utils.ts` (map-based merge,
  unconditional write when the new-entry list is nonempty).
* `ForexAppend` — the earlier forex revision whose merge simply
  concatenates and sorts.
* `Coingecko` / `CoingeckoPro` — the two CoinGecko client revisions
  (`withRetry`, `calculateDateRange`, wait-time computation).
* `CurrencyFreaks` — the forex client (`fetchRateForDate`,
  `getDatesInMonth`, `fetchDailyForexRates`, axios-retry condition).

File I/O is embedded by passing the parsed contents of the TSV file as
the `existingEntries` argument and returning the payload of the
`writeTsvFile` call (`written = some l`), or `none` when no write is
performed.  JavaScript number values are embedded as `ℚ`, dates as their
`YYYY-MM-DD` strings (string comparison on such strings is date order,
matching the `localeCompare` sort in the source).
-/

/-- Left-pad a month or day number to two digits, as
`n.toString().padStart(2, "0")`. -/
def pad2 (n : Nat) : String :=
  if n < 10 then "0" ++ toString n else toString n

/-- JS `s.startsWith(pre)`: `pre` is a prefix of `s`, tested on the
character data. -/
def strStartsWith (s pre : String) : Bool :=
  pre.data.isPrefixOf s.data

/-- JS `a.localeCompare(b) ≤ 0` for ASCII strings: lexicographic order on
the character data. -/
def strLe (a b : String) : Bool :=
  decide (a.data ≤ b.data)

/-- Stable insertion of an entry into a list sorted ascending by a string
key, placing the new element after existing elements with keys `≤` its
own.  `sortByKey` models the stable `Array.prototype.sort` with the
`(a, b) => a.date.localeCompare(b.date)` comparator used throughout the
source. -/
def insertByKey {α : Type} (key : α → String) (e : α) : List α → List α
  | [] => [e]
  | x :: xs => if strLe (key x) (key e) then x :: insertByKey key e xs else e :: x :: xs

/-- Stable sort by a string key (insertion sort), modelling the JS
`arr.sort((a, b) => a.date.localeCompare(b.date))`. -/
def sortByKey {α : Type} (key : α → String) (l : List α) : List α :=
  l.foldl (fun acc e => insertByKey key e acc) []

namespace CryptoTsv

/-- Entry of a crypto TSV file: a `YYYY-MM-DD` date and a USD price. -/
structure CryptoRateEntry where
  date : String
  price : ℚ
deriving DecidableEq

/-- JS `Map<string, CryptoRateEntry>` keyed by `entry.date`, embedded as an
association list in insertion order: `set` replaces the value at an
existing key in place and appends otherwise. -/
def mapSet : List CryptoRateEntry → CryptoRateEntry → List CryptoRateEntry
  | [], e => [e]
  | x :: xs, e => if x.date = e.date then e :: xs else x :: mapSet xs e

/-- JS `Map.get` on the date-keyed map. -/
def mapGet (m : List CryptoRateEntry) (d : String) : Option CryptoRateEntry :=
  m.find? (fun x => x.date = d)

/-- The first loop of `mergeEntries`: build the date-keyed map from the
existing entries. -/
def buildMap (entries : List CryptoRateEntry) : List CryptoRateEntry :=
  entries.foldl mapSet []

/-- Loop state of the second loop of `mergeEntries`: the evolving map and
the running `changedCount`. -/
structure MergeAcc where
  map : List CryptoRateEntry
  changedCount : Nat
deriving DecidableEq

/-- One iteration of the `for (const newEntry of newEntries)` loop of
`mergeEntries` (tsv-utils, overwrite revision): entries outside the
target month are skipped; an existing date is overwritten only when the
price differs; a new date is added; both count as a change. -/
def mergeStep (targetMonth : String) (acc : MergeAcc) (newEntry : CryptoRateEntry) : MergeAcc :=
  if !strStartsWith newEntry.date targetMonth then acc
  else
    match mapGet acc.map newEntry.date with
    | some existing =>
      if existing.price ≠ newEntry.price then
        ⟨mapSet acc.map newEntry, acc.changedCount + 1⟩
      else acc
    | none => ⟨mapSet acc.map newEntry, acc.changedCount + 1⟩

/-- Result of `mergeEntries`: the merged, date-sorted entries and the
number of changed entries. -/
structure MergeResult where
  mergedEntries : List CryptoRateEntry
  changedCount : Nat
deriving DecidableEq

/-- `mergeEntries(existingEntries, newEntries, targetMonth)` from
`src/cli/fetch-crypto/tsv-utils.ts` (overwrite revision). -/
def mergeEntries (existingEntries newEntries : List CryptoRateEntry)
    (targetMonth : String) : MergeResult :=
  let acc := newEntries.foldl (mergeStep targetMonth) ⟨buildMap existingEntries, 0⟩
  ⟨sortByKey (fun e => e.date) acc.map, acc.changedCount⟩

/-- Result of `updateTsvFile`: the reported count and, when a write
occurred, the entry list passed to `writeTsvFile` (`none` = no write). -/
structure UpdateResult where
  newEntriesCount : Nat
  written : Option (List CryptoRateEntry)
deriving DecidableEq

/-- The target month key, as `year + "-" + padded month`. -/
def targetMonthStr (year month : Nat) : String :=
  toString year ++ "-" ++ pad2 month

/-- `updateTsvFile(currency, newEntries, year, month)` from
`src/cli/fetch-crypto/tsv-utils.ts` (overwrite revision), with the parsed
file contents passed in as `existingEntries` and the write effect
returned in `written`. -/
def updateTsvFile (existingEntries newEntries : List CryptoRateEntry)
    (year month : Nat) : UpdateResult :=
  if newEntries.length = 0 then ⟨0, none⟩
  else
    let r := mergeEntries existingEntries newEntries (targetMonthStr year month)
    if r.changedCount = 0 then ⟨0, none⟩
    else ⟨r.changedCount, some r.mergedEntries⟩

/-- Dates of the entries of a map or list. -/
def dates (l : List CryptoRateEntry) : List String :=
  l.map (fun e => e.date)

end CryptoTsv

namespace CryptoFill

/-- `mergeEntries(existingEntries, newEntries, targetMonth)` from the
fill-only revision of `src/cli/fetch-crypto/tsv-utils.ts`: new entries
whose date already exists in the target month are dropped, the remainder
are appended and the result sorted; existing dates are never replaced. -/
def mergeEntries (existingEntries newEntries : List CryptoTsv.CryptoRateEntry)
    (targetMonth : String) : List CryptoTsv.CryptoRateEntry :=
  let existingDatesInMonth :=
    (existingEntries.filter (fun e => strStartsWith e.date targetMonth)).map (fun e => e.date)
  let filteredNewEntries :=
    newEntries.filter (fun e => !existingDatesInMonth.contains e.date)
  if filteredNewEntries.length = 0 then existingEntries
  else sortByKey (fun e => e.date) (existingEntries ++ filteredNewEntries)

/-- `updateTsvFile` of the fill-only revision: the reported count is the
growth in length, and the file is written only when it is nonzero. -/
def updateTsvFile (existingEntries newEntries : List CryptoTsv.CryptoRateEntry)
    (year month : Nat) : CryptoTsv.UpdateResult :=
  if newEntries.length = 0 then ⟨0, none⟩
  else
    let mergedEntries :=
      mergeEntries existingEntries newEntries (CryptoTsv.targetMonthStr year month)
    let newEntriesCount := mergedEntries.length - existingEntries.length
    if newEntriesCount = 0 then ⟨0, none⟩
    else ⟨newEntriesCount, some mergedEntries⟩

end CryptoFill

namespace ForexTsv

/-- Entry of the forex TSV file: a `YYYY-MM-DD` date and a GBP→USD rate. -/
structure ForexEntry where
  date : String
  rate : ℚ
deriving DecidableEq

/-- JS `Map<string, ForexEntry>` update keyed by `entry.date`
(`src/cli/fetch-forex/tsv-utils.ts`). -/
def mapSet : List ForexEntry → ForexEntry → List ForexEntry
  | [], e => [e]
  | x :: xs, e => if x.date = e.date then e :: xs else x :: mapSet xs e

/-- One iteration of the new-entry loop of the forex `mergeEntries`:
override an existing date only when the rate differs, add a new date. -/
def mergeStep (m : List ForexEntry) (newEntry : ForexEntry) : List ForexEntry :=
  match m.find? (fun x => x.date = newEntry.date) with
  | some existing => if existing.rate ≠ newEntry.rate then mapSet m newEntry else m
  | none => mapSet m newEntry

/-- `mergeEntries(existingEntries, newEntries)` from
`src/cli/fetch-forex/tsv-utils.ts` (map-based revision): no scope
argument and no changed count. -/
def mergeEntries (existingEntries newEntries : List ForexEntry) : List ForexEntry :=
  sortByKey (fun e => e.date) (newEntries.foldl mergeStep (existingEntries.foldl mapSet []))

/-- Result of the forex `updateTsvFile`: reported count and write payload. -/
structure UpdateResult where
  newEntriesCount : Nat
  written : Option (List ForexEntry)
deriving DecidableEq

/-- `updateTsvFile(newEntries)` from `src/cli/fetch-forex/tsv-utils.ts`:
with a nonempty input it always merges, always writes, and reports
`newEntries.length`, whether or not anything changed. -/
def updateTsvFile (existingEntries newEntries : List ForexEntry) : UpdateResult :=
  if newEntries.length = 0 then ⟨0, none⟩
  else ⟨newEntries.length, some (mergeEntries existingEntries newEntries)⟩

end ForexTsv

namespace ForexAppend

/-- `mergeEntries(existingEntries, newEntries)` from the earlier forex
tsv-utils revision: concatenate and sort, with no de-duplication. -/
def mergeEntries (existingEntries newEntries : List ForexTsv.ForexEntry) :
    List ForexTsv.ForexEntry :=
  sortByKey (fun e => e.date) (existingEntries ++ newEntries)

/-- `updateTsvFile(newEntries)` of the append revision: always writes the
concatenated result when the input is nonempty. -/
def updateTsvFile (existingEntries newEntries : List ForexTsv.ForexEntry) :
    ForexTsv.UpdateResult :=
  if newEntries.length = 0 then ⟨0, none⟩
  else ⟨newEntries.length, some (mergeEntries existingEntries newEntries)⟩

end ForexAppend

/-- A JavaScript error as seen by the retry logic: an Axios error with an
optional HTTP status, an optional numeric `retry-after` header (in
seconds), and the axios-retry network/idempotent classification — or any
other thrown value. -/
inductive JsError where
  | axios (status : Option Nat) (retryAfterHeader : Option Nat) (isNetworkOrIdempotent : Bool)
  | other
deriving DecidableEq

/-- The error's `response?.status`. -/
def JsError.statusOf : JsError → Option Nat
  | .axios st _ _ => st
  | .other => none

/-- The error's `response?.headers["retry-after"]`, parsed. -/
def JsError.retryAfterOf : JsError → Option Nat
  | .axios _ h _ => h
  | .other => none

/-- Final outcome of a `withRetry` execution. -/
inductive RetryOutcome (T : Type) where
  | ok (t : T)
  | maxRetriesExceeded (maxRetries : Nat)
  | raised (e : JsError)
  | unexpected
deriving DecidableEq

/-- Trace of a `withRetry` execution: the outcome, the number of times the
operation was invoked, and the waits awaited before each 429 retry. -/
structure RetryRun (T : Type) where
  outcome : RetryOutcome T
  calls : Nat
  waits : List Nat
deriving DecidableEq

/-- The `for (let attempt = 0; attempt <= maxRetries; attempt++)` loop of
`withRetry`, shared verbatim by the demo-key and pro-key CoinGecko
clients up to the wait-time formula `wait`.  The operation is embedded as
a function from the attempt number to that call's result.  Only an HTTP
429 at `attempt < maxRetries` continues the loop; at the final attempt
any error becomes the max-retries error; any other error is rethrown at
once.  `fuel` is `maxRetries + 1 - attempt`; exhausting it models the
unreachable trailing `throw new Error("Unexpected error in withRetry")`. -/
def retryGo {T : Type} (wait : Option Nat → Nat → Nat → Nat)
    (op : Nat → Except JsError T) (maxRetries delayMs : Nat) :
    Nat → Nat → RetryRun T
  | _, 0 => ⟨.unexpected, 0, []⟩
  | attempt, fuel + 1 =>
    match op attempt with
    | .ok t => ⟨.ok t, 1, []⟩
    | .error e =>
      if e.statusOf = some 429 ∧ attempt < maxRetries then
        let rest := retryGo wait op maxRetries delayMs (attempt + 1) fuel
        ⟨rest.outcome, rest.calls + 1, wait e.retryAfterOf delayMs attempt :: rest.waits⟩
      else if attempt = maxRetries then ⟨.maxRetriesExceeded maxRetries, 1, []⟩
      else ⟨.raised e, 1, []⟩

namespace Coingecko

/-- Constants of `src/cli/fetch-crypto/coingecko-client.ts` (demo keys). -/
def MAX_RETRIES : Nat := 5

/-- Base delay, in milliseconds, for exponential backoff. -/
def RETRY_DELAY : Nat := 1000

/-- The 429 wait of the demo-key client:
`retryAfter ? Number(retryAfter) * 1000 : delayMs * 2 ** attempt`.  A
present `retry-after` header — including `"0"`, which is truthy in JS —
is used directly. -/
def waitTime (retryAfter : Option Nat) (delayMs attempt : Nat) : Nat :=
  match retryAfter with
  | some s => s * 1000
  | none => delayMs * 2 ^ attempt

/-- `withRetry(operation, maxRetries, delayMs)` of the demo-key client,
as an execution trace. -/
def withRetryRun {T : Type} (op : Nat → Except JsError T)
    (maxRetries delayMs : Nat) : RetryRun T :=
  retryGo waitTime op maxRetries delayMs 0 (maxRetries + 1)

/-- Environment for `getApiKey` of the demo-key client: the two
`COINGECKO_API_KEY_1` / `COINGECKO_API_KEY_2` variables (`none` =
unset). -/
structure Env where
  key1 : Option String
  key2 : Option String
deriving DecidableEq

/-- JS truthiness of an environment variable (`undefined` and `""` are
falsy). -/
def truthy : Option String → Bool
  | none => false
  | some s => !s.isEmpty

/-- `getApiKey()` of the demo-key client: throws unless both keys are
set, then returns one of the two chosen by `Math.random() < 0.5`
(embedded as the boolean `pickFirst`). -/
def getApiKey (env : Env) (pickFirst : Bool) : Except String String :=
  if !truthy env.key1 then
    .error "COINGECKO_API_KEY_1 environment variable is not set"
  else if !truthy env.key2 then
    .error "COINGECKO_API_KEY_2 environment variable is not set"
  else .ok (if pickFirst then env.key1.getD "" else env.key2.getD "")

end Coingecko

namespace CoingeckoPro

/-- Constants of the pro-API CoinGecko client revision. -/
def MAX_RETRIES : Nat := 5

/-- Base delay, in milliseconds, for exponential backoff. -/
def RETRY_DELAY : Nat := 1000

/-- Minimum wait, in milliseconds, on rate limit. -/
def MIN_RETRY_WAIT : Nat := 5000

/-- The 429 wait of the pro client:
`Math.max(MIN_RETRY_WAIT, retryAfterMs || exponentialBackoff)` where
`retryAfterMs` is `Number(retryAfter) * 1000` when the header is present
and `0` otherwise (`x || y` is `y` when `x` is `0`). -/
def waitTime (retryAfter : Option Nat) (delayMs attempt : Nat) : Nat :=
  let retryAfterMs := (retryAfter.getD 0) * 1000
  let exponentialBackoff := delayMs * 2 ^ attempt
  max MIN_RETRY_WAIT (if retryAfterMs = 0 then exponentialBackoff else retryAfterMs)

/-- `withRetry` of the pro client, as an execution trace; the loop body is
identical to the demo client apart from the wait formula. -/
def withRetryRun {T : Type} (op : Nat → Except JsError T)
    (maxRetries delayMs : Nat) : RetryRun T :=
  retryGo waitTime op maxRetries delayMs 0 (maxRetries + 1)

end CoingeckoPro

/-- A UTC calendar date, as handled by `dayjs.utc()`. -/
structure Date where
  year : Nat
  month : Nat
  day : Nat
deriving DecidableEq

/-- Gregorian leap-year rule. -/
def isLeapYear (y : Nat) : Bool :=
  y % 4 = 0 && (y % 100 != 0 || y % 400 = 0)

/-- Number of days of month `m` (1–12) of year `y`. -/
def daysInMonth (y m : Nat) : Nat :=
  if m = 2 then (if isLeapYear y then 29 else 28)
  else if m = 4 ∨ m = 6 ∨ m = 9 ∨ m = 11 then 30
  else 31

/-- Number of days of year `y`. -/
def daysInYear (y : Nat) : Nat :=
  if isLeapYear y then 366 else 365

/-- Days in the years `1970, …, 1970 + n - 1`. -/
def daysOfYearsFrom1970 : Nat → Nat
  | 0 => 0
  | n + 1 => daysOfYearsFrom1970 n + daysInYear (1970 + n)

/-- Days from 1970-01-01 to `y`-01-01 (for `y ≥ 1970`). -/
def daysBeforeYear (y : Nat) : Nat :=
  daysOfYearsFrom1970 (y - 1970)

/-- Days from `y`-01-01 to `y`-`m`-01. -/
def daysBeforeMonth (y : Nat) : Nat → Nat
  | 0 => 0
  | 1 => 0
  | m + 1 => daysBeforeMonth y m + daysInMonth y m

/-- Days from 1970-01-01 (the Unix epoch) to a date, i.e. the date's
timestamp in days; `d.unix()` of a midnight instant is this times 86400. -/
def daysSinceEpoch (d : Date) : Nat :=
  daysBeforeYear d.year + daysBeforeMonth d.year d.month + (d.day - 1)

/-- The previous calendar day, as `now.subtract(1, "day")`. -/
def predDay (d : Date) : Date :=
  if 1 < d.day then ⟨d.year, d.month, d.day - 1⟩
  else if 1 < d.month then ⟨d.year, d.month - 1, daysInMonth d.year (d.month - 1)⟩
  else ⟨d.year - 1, 12, 31⟩

/-- The next calendar day. -/
def nextDay (d : Date) : Date :=
  if d.day < daysInMonth d.year d.month then ⟨d.year, d.month, d.day + 1⟩
  else if d.month < 12 then ⟨d.year, d.month + 1, 1⟩
  else ⟨d.year + 1, 1, 1⟩

/-- Day-of-month overflow after a dayjs `.year()` or `.month()` setter:
an out-of-range day rolls over into the following month (native `Date`
semantics; the overflow is at most 3 days, so one step suffices). -/
def rollOver (d : Date) : Date :=
  if d.day ≤ daysInMonth d.year d.month then d
  else if d.month = 12 then ⟨d.year + 1, 1, d.day - daysInMonth d.year d.month⟩
  else ⟨d.year, d.month + 1, d.day - daysInMonth d.year d.month⟩

/-- dayjs `.year(y)` setter: keeps month and day, rolling overflow. -/
def setYear (d : Date) (y : Nat) : Date :=
  rollOver ⟨y, d.month, d.day⟩

/-- dayjs `.month(m-1)` setter (`m` is 1-based here): keeps year and day,
rolling overflow. -/
def setMonth (d : Date) (m : Nat) : Date :=
  rollOver ⟨d.year, m, d.day⟩

/-- `dayjs.utc().year(year).month(month - 1).startOf("month")`: the start
day of the requested month, computed from `now` via the dayjs setters. -/
def startOfMonthFor (now : Date) (year month : Nat) : Date :=
  ⟨(setMonth (setYear now year) month).year, (setMonth (setYear now year) month).month, 1⟩

/-- Inclusive timestamp window returned by `calculateDateRange`. -/
structure DateRange where
  fromTimestamp : Nat
  toTimestamp : Nat
deriving DecidableEq

/-- The first day of the month after `d` (used with `d.day = 1`). -/
def addOneMonth (d : Date) : Date :=
  if d.month = 12 then ⟨d.year + 1, 1, d.day⟩ else ⟨d.year, d.month + 1, d.day⟩

namespace Coingecko

/-- `calculateDateRange(year, month)` of the CoinGecko clients (both
revisions are identical): start of the requested month at 00:00 UTC; for
the current month the end is yesterday 23:59:59 UTC, otherwise the first
day of the next month at 00:00 UTC.  `now` (`dayjs.utc()`) is passed
explicitly; the function is total — it returns the computed pair
unconditionally, with no error path. -/
def calculateDateRange (now : Date) (year month : Nat) : DateRange :=
  let fromDate := startOfMonthFor now year month
  let fromTimestamp := daysSinceEpoch fromDate * 86400
  let toTimestamp :=
    if year = now.year ∧ month = now.month then
      daysSinceEpoch (predDay now) * 86400 + 86399
    else
      daysSinceEpoch (addOneMonth fromDate) * 86400
  ⟨fromTimestamp, toTimestamp⟩

end Coingecko

/-- `YYYY-MM-DD` formatting of a date (`.format("YYYY-MM-DD")`). -/
def Date.fmt (d : Date) : String :=
  toString d.year ++ "-" ++ pad2 d.month ++ "-" ++ pad2 d.day

/-- `n` consecutive dates starting at `d`. -/
def dateList : Date → Nat → List Date
  | _, 0 => []
  | d, n + 1 => d :: dateList (nextDay d) n

namespace CurrencyFreaks

/-- Constants of the CurrencyFreaks forex client. -/
def MAX_RETRIES : Nat := 3

/-- Base delay, in milliseconds, for exponential backoff. -/
def RETRY_DELAY_BASE : Nat := 1000

/-- The `axios-retry` `retryCondition` of the forex client: retry on
network errors (or idempotent request errors), HTTP 429, and any status
`≥ 500` (`(error.response?.status ?? 0) >= 500`). -/
def retryCondition : JsError → Bool
  | .axios st _ net => net || st == some 429 || decide (500 ≤ st.getD 0)
  | .other => false

/-- The `axios-retry` `retryDelay`: `RETRY_DELAY_BASE * 2 ** (retryCount - 1)`. -/
def retryDelay (retryCount : Nat) : Nat :=
  RETRY_DELAY_BASE * 2 ^ (retryCount - 1)

/-- The result of `Number(response.data.rates.GBP)`: `NaN` or a numeric
value. -/
inductive JsNum where
  | nan
  | val (q : ℚ)
deriving DecidableEq

/-- The provider response body as used by `fetchRateForDate`:
`rates?.GBP`, already passed through `Number` (`none` = key absent). -/
structure CurrencyFreaksResponse where
  ratesGBP : Option JsNum
deriving DecidableEq

/-- `Math.round` for a nonnegative rational. -/
def jsRound (q : ℚ) : ℤ :=
  ⌊q + 1 / 2⌋

/-- `fetchRateForDate(apiKey, date)`: `null` on any HTTP/network error,
on a missing GBP rate, and on a NaN or non-positive rate; otherwise the
reciprocal rounded to four decimal places.  The single HTTP call is
embedded as its result `resp`. -/
def fetchRateForDate (resp : Except JsError CurrencyFreaksResponse) : Option ℚ :=
  match resp with
  | .error _ => none
  | .ok r =>
    match r.ratesGBP with
    | none => none
    | some .nan => none
    | some (.val usdToGbpRate) =>
      if usdToGbpRate ≤ 0 then none
      else some ((jsRound (1 / usdToGbpRate * 10000) : ℚ) / 10000)

/-- `getDatesInMonth(year, month)` of the forex client: all days of the
requested month, clamped to yesterday when the month is the current one;
an inverted window yields the empty list (the `while` loop never runs). -/
def getDatesInMonth (now : Date) (year month : Nat) : List String :=
  let startDate := startOfMonthFor now year month
  let endDate :=
    if year = now.year ∧ month = now.month then predDay now
    else ⟨startDate.year, startDate.month, daysInMonth startDate.year startDate.month⟩
  let n := daysSinceEpoch endDate + 1 - daysSinceEpoch startDate
  (dateList startDate n).map Date.fmt

/-- One forex observation. -/
structure ForexRateEntry where
  date : String
  rate : ℚ
deriving DecidableEq

/-- The per-day loop of `fetchDailyForexRates`: fetch each date of the
month in order; a `null` rate is skipped, a valid rate is appended.  The
per-date HTTP results are embedded as `responses`. -/
def fetchDailyForexRates (now : Date) (year month : Nat)
    (responses : String → Except JsError CurrencyFreaksResponse) :
    List ForexRateEntry :=
  (getDatesInMonth now year month).foldl
    (fun rates d =>
      match fetchRateForDate (responses d) with
      | some r => rates ++ [⟨d, r⟩]
      | none => rates)
    []

end CurrencyFreaks
theorem insertByKey_perm {α : Type} (key : α → String) (e : α) (l : List α) :
    List.Perm (insertByKey key e l) (e :: l) := by
  induction l with
  | nil => rfl
  | cons x xs ih =>
    simp only [insertByKey]
    split
    · exact (ih.cons x).trans (List.Perm.swap e x xs)
    · rfl

theorem sortByKey_perm {α : Type} (key : α → String) (l : List α) :
    List.Perm (sortByKey key l) l := by
  suffices h : ∀ (l acc : List α),
      List.Perm (l.foldl (fun acc e => insertByKey key e acc) acc) (acc ++ l) by
    simpa using h l []
  intro l
  induction l with
  | nil => intro acc; simp
  | cons x xs ih =>
    intro acc
    refine ((ih (insertByKey key x acc)).trans ?_)
    refine (((insertByKey_perm key x acc).append_right xs).trans ?_)
    simpa using List.perm_middle.symm

namespace CryptoTsv

theorem mem_dates {l : List CryptoRateEntry} {d : String} :
    d ∈ dates l ↔ ∃ e ∈ l, e.date = d := by
  simp [dates]

theorem dates_mapSet (m : List CryptoRateEntry) (e : CryptoRateEntry) {d : String} :
    d ∈ dates (mapSet m e) ↔ d = e.date ∨ d ∈ dates m := by
  induction m with
  | nil => simp [mapSet, dates, eq_comm]
  | cons x xs ih =>
    simp only [mapSet]
    split
    · rename_i hx
      simp only [dates, List.map_cons, List.mem_cons] at *
      constructor
      · rintro (h | h)
        · exact Or.inl h
        · exact Or.inr (Or.inr h)
      · rintro (h | h | h)
        · exact Or.inl h
        · exact Or.inl (by rw [h, hx])
        · exact Or.inr h
    · simp only [dates, List.map_cons, List.mem_cons] at *
      constructor
      · rintro (h | h)
        · exact Or.inr (Or.inl h)
        · rcases ih.mp h with h | h
          · exact Or.inl h
          · exact Or.inr (Or.inr h)
      · rintro (h | h | h)
        · exact Or.inr (ih.mpr (Or.inl h))
        · exact Or.inl h
        · exact Or.inr (ih.mpr (Or.inr h))

theorem nodup_dates_mapSet {m : List CryptoRateEntry} (e : CryptoRateEntry)
    (h : (dates m).Nodup) : (dates (mapSet m e)).Nodup := by
  induction m with
  | nil => simp [mapSet, dates]
  | cons x xs ih =>
    simp only [dates, List.map_cons, List.nodup_cons] at h
    simp only [mapSet]
    split
    · rename_i hx
      simp only [dates, List.map_cons, List.nodup_cons]
      exact ⟨by rw [← hx]; exact h.1, h.2⟩
    · rename_i hx
      simp only [dates, List.map_cons, List.nodup_cons]
      refine ⟨fun hmem => ?_, ih h.2⟩
      rcases (dates_mapSet xs e).mp hmem with hcase | hcase
      · exact hx hcase
      · exact h.1 hcase

theorem mapGet_mapSet_self (m : List CryptoRateEntry) (e : CryptoRateEntry) :
    mapGet (mapSet m e) e.date = some e := by
  induction m with
  | nil => simp [mapSet, mapGet, List.find?]
  | cons x xs ih =>
    simp only [mapSet]
    split
    · simp [mapGet, List.find?]
    · rename_i hx
      simp only [mapGet, List.find?_cons_of_neg, decide_eq_true_eq]
      rw [List.find?_cons_of_neg _ (by simpa using hx)]
      exact ih

theorem mapGet_mapSet_ne (m : List CryptoRateEntry) (e : CryptoRateEntry)
    {d : String} (hd : d ≠ e.date) : mapGet (mapSet m e) d = mapGet m d := by
  induction m with
  | nil => simp [mapSet, mapGet, List.find?, hd.symm]
  | cons x xs ih =>
    simp only [mapSet]
    split
    · rename_i hx
      by_cases hxd : x.date = d
      · exact absurd (hxd ▸ hx) (by simpa [eq_comm] using hd)
      · rw [mapGet, List.find?_cons_of_neg _ (by simpa [eq_comm] using hd),
          mapGet, List.find?_cons_of_neg _ (by simpa using hxd)]
    · by_cases hxd : x.date = d
      · rw [mapGet, List.find?_cons_of_pos _ (by simpa using hxd),
          mapGet, List.find?_cons_of_pos _ (by simpa using hxd)]
      · rw [mapGet, List.find?_cons_of_neg _ (by simpa using hxd),
          mapGet, List.find?_cons_of_neg _ (by simpa using hxd)]
        exact ih

theorem mapGet_eq_some_iff {m : List CryptoRateEntry} (hm : (dates m).Nodup)
    {d : String} {e : CryptoRateEntry} :
    mapGet m d = some e ↔ e ∈ m ∧ e.date = d := by
  induction m with
  | nil => simp [mapGet, List.find?]
  | cons x xs ih =>
    simp only [dates, List.map_cons, List.nodup_cons] at hm
    by_cases hxd : x.date = d
    · rw [mapGet, List.find?_cons_of_pos _ (by simpa using hxd)]
      simp only [Option.some_inj, List.mem_cons]
      constructor
      · rintro rfl; exact ⟨Or.inl rfl, hxd⟩
      · rintro ⟨(rfl | hmem), hed⟩
        · rfl
        · exact absurd (mem_dates.mpr ⟨e, hmem, hed.trans hxd.symm⟩) hm.1
    · rw [mapGet, List.find?_cons_of_neg _ (by simpa using hxd)]
      rw [mapGet] at ih
      rw [ih hm.2]
      simp only [List.mem_cons]
      constructor
      · rintro ⟨hmem, hed⟩; exact ⟨Or.inr hmem, hed⟩
      · rintro ⟨(rfl | hmem), hed⟩
        · exact absurd hed hxd
        · exact ⟨hmem, hed⟩

theorem mapGet_eq_none_iff {m : List CryptoRateEntry} {d : String} :
    mapGet m d = none ↔ d ∉ dates m := by
  simp only [mapGet, List.find?_eq_none, decide_eq_true_eq, mem_dates]
  constructor
  · rintro h ⟨e, hmem, rfl⟩; exact h e hmem rfl
  · rintro h e hmem rfl; exact h ⟨e, hmem, rfl⟩

theorem dates_append (a b : List CryptoRateEntry) :
    dates (a ++ b) = dates a ++ dates b := by
  simp [dates]

theorem mapSet_of_not_mem {m : List CryptoRateEntry} {e : CryptoRateEntry}
    (h : e.date ∉ dates m) : mapSet m e = m ++ [e] := by
  induction m with
  | nil => rfl
  | cons x xs ih =>
    simp only [dates, List.map_cons, List.mem_cons, not_or] at h
    have hne : ¬ x.date = e.date := fun hx => h.1 hx.symm
    simp only [mapSet, if_neg hne, List.cons_append, List.cons.injEq, true_and]
    exact ih h.2

theorem foldl_mapSet_fresh (l : List CryptoRateEntry) :
    ∀ m : List CryptoRateEntry, (dates (m ++ l)).Nodup → l.foldl mapSet m = m ++ l := by
  induction l with
  | nil => intro m _; simp
  | cons x xs ih =>
    intro m h
    rw [dates_append] at h
    rcases List.nodup_append.mp h with ⟨h1, h2, hdisj⟩
    have hx : x.date ∉ dates m := fun hmem => hdisj hmem (by simp [dates])
    have hrest : (dates ((m ++ [x]) ++ xs)).Nodup := by
      rw [List.append_assoc, List.singleton_append, dates_append]
      exact List.nodup_append.mpr ⟨h1, h2, hdisj⟩
    rw [List.foldl_cons, mapSet_of_not_mem hx, ih (m ++ [x]) hrest,
      List.append_assoc, List.singleton_append]

theorem buildMap_eq_self {l : List CryptoRateEntry} (h : (dates l).Nodup) :
    buildMap l = l := by
  simpa using foldl_mapSet_fresh l [] (by simpa using h)

theorem nodup_dates_buildMap (l : List CryptoRateEntry) :
    (dates (buildMap l)).Nodup := by
  suffices h : ∀ m : List CryptoRateEntry, (dates m).Nodup →
      (dates (l.foldl mapSet m)).Nodup by
    exact h [] (by simp [dates])
  induction l with
  | nil => intro m hm; exact hm
  | cons x xs ih => intro m hm; exact ih _ (nodup_dates_mapSet x hm)

theorem nodup_dates_mergeStep {tm : String} {acc : MergeAcc} {n : CryptoRateEntry}
    (h : (dates acc.map).Nodup) : (dates (mergeStep tm acc n).map).Nodup := by
  rw [mergeStep]
  split
  · exact h
  · split
    · split
      · exact nodup_dates_mapSet n h
      · exact h
    · exact nodup_dates_mapSet n h

theorem nodup_dates_mergeFold {tm : String} (N : List CryptoRateEntry) :
    ∀ acc : MergeAcc, (dates acc.map).Nodup →
      (dates (N.foldl (mergeStep tm) acc).map).Nodup := by
  induction N with
  | nil => intro acc h; exact h
  | cons n ns ih => intro acc h; exact ih _ (nodup_dates_mergeStep h)

theorem mergeStep_get_ne {tm : String} (acc : MergeAcc) (n : CryptoRateEntry)
    {d : String} (hd : d ≠ n.date) :
    mapGet (mergeStep tm acc n).map d = mapGet acc.map d := by
  rw [mergeStep]
  split
  · rfl
  · split
    · split
      · exact mapGet_mapSet_ne acc.map n hd
      · rfl
    · exact mapGet_mapSet_ne acc.map n hd

theorem mergeFold_get_of_forall_ne {tm : String} (N : List CryptoRateEntry)
    {d : String} (hd : ∀ n ∈ N, n.date ≠ d) (acc : MergeAcc) :
    mapGet (N.foldl (mergeStep tm) acc).map d = mapGet acc.map d := by
  induction N generalizing acc with
  | nil => rfl
  | cons n ns ih =>
    rw [List.foldl_cons, ih (fun x hx => hd x (List.mem_cons_of_mem n hx)),
      mergeStep_get_ne acc n (fun h => hd n (List.mem_cons_self n ns) h.symm)]

theorem mergeStep_get_self {tm : String} (acc : MergeAcc) (n : CryptoRateEntry)
    (hs : strStartsWith n.date tm = true) :
    mapGet (mergeStep tm acc n).map n.date = some n := by
  cases hg : mapGet acc.map n.date with
  | none =>
    simp only [mergeStep, hs, Bool.not_true, Bool.false_eq_true, if_false, hg]
    exact mapGet_mapSet_self acc.map n
  | some existing =>
    by_cases hp : existing.price = n.price
    · have hdate : existing.date = n.date := by
        have h2 : mapGet acc.map n.date = some existing := hg
        unfold mapGet at h2
        have h3 := List.find?_some h2
        simpa using h3
      have hen : existing = n := by
        cases existing; cases n; simp_all
      subst hen
      simp only [mergeStep, hs, Bool.not_true, Bool.false_eq_true, if_false, hg, ne_eq,
        not_true_eq_false, if_neg, ite_false]
    · simp only [mergeStep, hs, Bool.not_true, Bool.false_eq_true, if_false, hg, ne_eq,
        if_pos (by simpa using hp)]
      exact mapGet_mapSet_self acc.map n

theorem mergeFold_get_self {tm : String} {N : List CryptoRateEntry}
    (hN : (dates N).Nodup) {n : CryptoRateEntry} (hmem : n ∈ N)
    (hs : strStartsWith n.date tm = true) (acc : MergeAcc) :
    mapGet (N.foldl (mergeStep tm) acc).map n.date = some n := by
  induction N generalizing acc with
  | nil => cases hmem
  | cons x xs ih =>
    simp only [dates, List.map_cons, List.nodup_cons] at hN
    rcases List.mem_cons.mp hmem with rfl | hmem
    · rw [List.foldl_cons]
      have hne : ∀ y ∈ xs, y.date ≠ n.date := by
        intro y hy hcontra
        exact hN.1 (by rw [← hcontra]; exact List.mem_map_of_mem _ hy)
      rw [mergeFold_get_of_forall_ne xs hne _]
      exact mergeStep_get_self acc n hs
    · rw [List.foldl_cons]
      exact ih hN.2 hmem _

theorem mergeFold_const {tm : String} {N : List CryptoRateEntry}
    {m : List CryptoRateEntry} {c : Nat}
    (h : ∀ n ∈ N, strStartsWith n.date tm = true → mapGet m n.date = some n) :
    N.foldl (mergeStep tm) ⟨m, c⟩ = ⟨m, c⟩ := by
  induction N with
  | nil => rfl
  | cons n ns ih =>
    have hstep : mergeStep tm ⟨m, c⟩ n = ⟨m, c⟩ := by
      rw [mergeStep]
      split
      · rfl
      · rename_i hb
        have hs : strStartsWith n.date tm = true := by
          by_contra hns
          exact hb (by simp_all)
        rw [h n (List.mem_cons_self n ns) hs]
        simp
    rw [List.foldl_cons, hstep, ih (fun x hx => h x (List.mem_cons_of_mem n hx))]

end CryptoTsv

theorem retryGo_always429 {T : Type} (wait : Option Nat → Nat → Nat → Nat)
    (op : Nat → Except JsError T) (maxRetries delayMs : Nat)
    (h : ∀ n, ∃ ra net, op n = Except.error (JsError.axios (some 429) ra net)) :
    ∀ fuel attempt, attempt + fuel = maxRetries + 1 → 1 ≤ fuel →
      (retryGo wait op maxRetries delayMs attempt fuel).calls = fuel ∧
      (retryGo wait op maxRetries delayMs attempt fuel).outcome =
        RetryOutcome.maxRetriesExceeded maxRetries := by
  intro fuel
  induction fuel with
  | zero => intro attempt _ hpos; omega
  | succ f ih =>
    intro attempt hsum _
    obtain ⟨ra, net, hop⟩ := h attempt
    by_cases hlt : attempt < maxRetries
    · have hf : 1 ≤ f := by omega
      have hrec := ih (attempt + 1) (by omega) hf
      simp only [retryGo, hop, JsError.statusOf, and_true, hlt, if_pos, ite_true]
      constructor
      · simpa using hrec.1
      · simpa using hrec.2
    · have heq : attempt = maxRetries := by omega
      have hf0 : f = 0 := by omega
      subst heq hf0
      simp [retryGo, hop, JsError.statusOf, hlt]

/-- C4: an operation that fails with HTTP 429 on every invocation is
called exactly `MAX_RETRIES + 1` times by `withRetry` (demo and pro
clients alike, both with `MAX_RETRIES = 5`), after which the
max-retries-exceeded error carrying the retry count is thrown. -/
theorem withRetry_always429_retry_ceiling {T : Type} (op : Nat → Except JsError T)
    (h : ∀ n, ∃ ra net, op n = Except.error (JsError.axios (some 429) ra net)) :
    ((Coingecko.withRetryRun op Coingecko.MAX_RETRIES Coingecko.RETRY_DELAY).calls =
        Coingecko.MAX_RETRIES + 1 ∧
      (Coingecko.withRetryRun op Coingecko.MAX_RETRIES Coingecko.RETRY_DELAY).outcome =
        RetryOutcome.maxRetriesExceeded Coingecko.MAX_RETRIES) ∧
    ((CoingeckoPro.withRetryRun op CoingeckoPro.MAX_RETRIES CoingeckoPro.RETRY_DELAY).calls =
        CoingeckoPro.MAX_RETRIES + 1 ∧
      (CoingeckoPro.withRetryRun op CoingeckoPro.MAX_RETRIES CoingeckoPro.RETRY_DELAY).outcome =
        RetryOutcome.maxRetriesExceeded CoingeckoPro.MAX_RETRIES) := by
  refine ⟨?_, ?_⟩ <;>
    exact retryGo_always429 _ op _ _ h (_ + 1) 0 (by omega) (by omega)

/-- C4 witness: a concrete always-429 operation is called 6 times. -/
theorem withRetry_always429_retry_ceiling_witness :
    ((Coingecko.withRetryRun
          (fun _ => (Except.error (JsError.axios (some 429) none false) : Except JsError Unit))
          Coingecko.MAX_RETRIES Coingecko.RETRY_DELAY).calls =
        Coingecko.MAX_RETRIES + 1 ∧
      (Coingecko.withRetryRun
          (fun _ => (Except.error (JsError.axios (some 429) none false) : Except JsError Unit))
          Coingecko.MAX_RETRIES Coingecko.RETRY_DELAY).outcome =
        RetryOutcome.maxRetriesExceeded Coingecko.MAX_RETRIES) ∧
    ((CoingeckoPro.withRetryRun
          (fun _ => (Except.error (JsError.axios (some 429) none false) : Except JsError Unit))
          CoingeckoPro.MAX_RETRIES CoingeckoPro.RETRY_DELAY).calls =
        CoingeckoPro.MAX_RETRIES + 1 ∧
      (CoingeckoPro.withRetryRun
          (fun _ => (Except.error (JsError.axios (some 429) none false) : Except JsError Unit))
          CoingeckoPro.MAX_RETRIES CoingeckoPro.RETRY_DELAY).outcome =
        RetryOutcome.maxRetriesExceeded CoingeckoPro.MAX_RETRIES) :=
  withRetry_always429_retry_ceiling _ (fun _ => ⟨none, false, rfl⟩)

/-- C5 counterexample: an operation that always fails with HTTP 500 is
called exactly once by the CoinGecko `withRetry` — the server error is
rethrown immediately with no retry — and likewise for a network-level
failure (no HTTP status); the claim that 5xx and network failures are
retried up to the maximum attempt count is false for this client. -/
theorem withRetry_500_fails_immediately_cex :
    (Coingecko.withRetryRun
        (fun _ => (Except.error (JsError.axios (some 500) none false) : Except JsError Unit))
        Coingecko.MAX_RETRIES Coingecko.RETRY_DELAY) =
      ⟨RetryOutcome.raised (JsError.axios (some 500) none false), 1, []⟩ ∧
    (Coingecko.withRetryRun
        (fun _ => (Except.error (JsError.axios none none true) : Except JsError Unit))
        Coingecko.MAX_RETRIES Coingecko.RETRY_DELAY) =
      ⟨RetryOutcome.raised (JsError.axios none none true), 1, []⟩ := by
  decide

/-- C5 (amended): only the forex client treats HTTP 5xx and network-level
failures as retryable: its axios-retry `retryCondition` returns `true`
for network/idempotent-request errors, HTTP 429, and every status
`≥ 500`, so those requests are retried under its backoff schedule. -/
theorem retryCondition_retries_5xx_and_network (st : Option Nat) (ra : Option Nat) (net : Bool)
    (h : net = true ∨ st = some 429 ∨ ∃ s, st = some s ∧ 500 ≤ s) :
    CurrencyFreaks.retryCondition (JsError.axios st ra net) = true := by
  rcases h with h | h | ⟨s, rfl, hs⟩
  · simp [CurrencyFreaks.retryCondition, h]
  · simp [CurrencyFreaks.retryCondition, h]
  · simp [CurrencyFreaks.retryCondition, Option.getD, hs]

/-- C5 witness: a concrete HTTP 503 response is classified retryable. -/
theorem retryCondition_retries_5xx_and_network_witness :
    CurrencyFreaks.retryCondition (JsError.axios (some 503) none false) = true :=
  retryCondition_retries_5xx_and_network (some 503) none false
    (Or.inr (Or.inr ⟨503, rfl, by omega⟩))

/-- C6 counterexample: in the demo-key CoinGecko client, a 429 whose
`retry-after` header is `0` produces a computed wait of `0` on every
retry — there is no positive floor, contradicting the claim. -/
theorem demo_waitTime_no_floor_cex :
    (Coingecko.withRetryRun
        (fun _ => (Except.error (JsError.axios (some 429) (some 0) false) : Except JsError Unit))
        Coingecko.MAX_RETRIES Coingecko.RETRY_DELAY).calls = 6 ∧
    (Coingecko.withRetryRun
        (fun _ => (Except.error (JsError.axios (some 429) (some 0) false) : Except JsError Unit))
        Coingecko.MAX_RETRIES Coingecko.RETRY_DELAY).waits = [0, 0, 0, 0, 0] := by
  decide

/-- C6 (amended): the pro-API client does enforce the floor: every
computed 429 wait is at least `MIN_RETRY_WAIT` (5000 ms), whatever the
`retry-after` hint, the base delay and the attempt number. -/
theorem pro_waitTime_floor (retryAfter : Option Nat) (delayMs attempt : Nat) :
    CoingeckoPro.MIN_RETRY_WAIT ≤ CoingeckoPro.waitTime retryAfter delayMs attempt := by
  simp only [CoingeckoPro.waitTime]
  exact le_max_left _ _

/-- C9: `getApiKey` of the demo-key client fails whenever either
`COINGECKO_API_KEY_1` or `COINGECKO_API_KEY_2` is unset, for either
outcome of the random key selection — so every fetch requires both
variables to be present even though only one key is used per request. -/
theorem getApiKey_requires_both_keys (env : Coingecko.Env) (pickFirst : Bool)
    (h : env.key1 = none ∨ env.key2 = none) :
    ∃ msg, Coingecko.getApiKey env pickFirst = Except.error msg := by
  rcases h with h | h
  · refine ⟨"COINGECKO_API_KEY_1 environment variable is not set", ?_⟩
    simp [Coingecko.getApiKey, Coingecko.truthy, h]
  · by_cases h1 : Coingecko.truthy env.key1 = true
    · refine ⟨"COINGECKO_API_KEY_2 environment variable is not set", ?_⟩
      simp only [Coingecko.getApiKey, h1, Bool.not_true, Bool.false_eq_true, if_false]
      simp [Coingecko.truthy, h]
    · refine ⟨"COINGECKO_API_KEY_1 environment variable is not set", ?_⟩
      simp [Coingecko.getApiKey, h1]

/-- C9 witness: with the second key unset, either random choice fails. -/
theorem getApiKey_requires_both_keys_witness :
    (∃ msg, Coingecko.getApiKey ⟨some "k1", none⟩ true = Except.error msg) ∧
    (∃ msg, Coingecko.getApiKey ⟨some "k1", none⟩ false = Except.error msg) :=
  ⟨getApiKey_requires_both_keys ⟨some "k1", none⟩ true (Or.inr rfl),
    getApiKey_requires_both_keys ⟨some "k1", none⟩ false (Or.inr rfl)⟩

theorem fetchDailyForexRates_eq_filterMap (now : Date) (year month : Nat)
    (responses : String → Except JsError CurrencyFreaks.CurrencyFreaksResponse) :
    CurrencyFreaks.fetchDailyForexRates now year month responses =
      (CurrencyFreaks.getDatesInMonth now year month).filterMap
        (fun d => (CurrencyFreaks.fetchRateForDate (responses d)).map
          (fun r => (⟨d, r⟩ : CurrencyFreaks.ForexRateEntry))) := by
  suffices h : ∀ (L : List String) (acc : List CurrencyFreaks.ForexRateEntry),
      L.foldl
        (fun rates d =>
          match CurrencyFreaks.fetchRateForDate (responses d) with
          | some r => rates ++ [⟨d, r⟩]
          | none => rates)
        acc =
      acc ++ L.filterMap
        (fun d => (CurrencyFreaks.fetchRateForDate (responses d)).map
          (fun r => (⟨d, r⟩ : CurrencyFreaks.ForexRateEntry))) by
    simpa [CurrencyFreaks.fetchDailyForexRates] using
      h (CurrencyFreaks.getDatesInMonth now year month) []
  intro L
  induction L with
  | nil => intro acc; simp
  | cons d ds ih =>
    intro acc
    rw [List.foldl_cons, List.filterMap_cons]
    cases hr : CurrencyFreaks.fetchRateForDate (responses d) with
    | none => simpa [hr] using ih acc
    | some r => simp [hr, ih (acc ++ [⟨d, r⟩])]

/-- C10: the per-day forex loop never aborts on a failed day: for every
month's date list, a day whose fetch yields `null` (any HTTP error,
missing GBP rate, or NaN/non-positive rate) is simply absent from the
returned entries, and every other day of the month — including days
after a failure — contributes its entry. -/
theorem fetchDailyForexRates_skips_failed_days (now : Date) (year month : Nat)
    (responses : String → Except JsError CurrencyFreaks.CurrencyFreaksResponse)
    (d : String) (hd : d ∈ CurrencyFreaks.getDatesInMonth now year month) :
    (CurrencyFreaks.fetchRateForDate (responses d) = none →
      ∀ e ∈ CurrencyFreaks.fetchDailyForexRates now year month responses, e.date ≠ d) ∧
    (∀ r, CurrencyFreaks.fetchRateForDate (responses d) = some r →
      (⟨d, r⟩ : CurrencyFreaks.ForexRateEntry) ∈
        CurrencyFreaks.fetchDailyForexRates now year month responses) := by
  rw [fetchDailyForexRates_eq_filterMap]
  constructor
  · intro hnone e he hcontra
    rcases List.mem_filterMap.mp he with ⟨d2, _, hmap⟩
    rcases Option.map_eq_some'.mp hmap with ⟨r, hr, hent⟩
    have hd2 : d2 = d := by rw [← hcontra, ← hent]
    rw [hd2, hnone] at hr
    cases hr
  · intro r hr
    exact List.mem_filterMap.mpr ⟨d, hd, by simp [hr]⟩

/-- C10 witness: requesting 2025-03 on 2025-03-03 yields the two days
2025-03-01 and 2025-03-02; with the first day's request failing, the
result omits 2025-03-01 and still contains 2025-03-02. -/
theorem fetchDailyForexRates_skips_failed_days_witness :
    (∀ e ∈ CurrencyFreaks.fetchDailyForexRates ⟨2025, 3, 3⟩ 2025 3
        (fun d => if d = "2025-03-01" then Except.error JsError.other
          else Except.ok ⟨some (CurrencyFreaks.JsNum.val (4 / 5))⟩),
      e.date ≠ "2025-03-01") ∧
    (⟨"2025-03-02", 5 / 4⟩ : CurrencyFreaks.ForexRateEntry) ∈
      CurrencyFreaks.fetchDailyForexRates ⟨2025, 3, 3⟩ 2025 3
        (fun d => if d = "2025-03-01" then Except.error JsError.other
          else Except.ok ⟨some (CurrencyFreaks.JsNum.val (4 / 5))⟩) :=
  ⟨(fetchDailyForexRates_skips_failed_days ⟨2025, 3, 3⟩ 2025 3 _ "2025-03-01"
      (by decide)).1 (by decide),
    (fetchDailyForexRates_skips_failed_days ⟨2025, 3, 3⟩ 2025 3 _ "2025-03-02"
      (by decide)).2 (5 / 4) (by
        norm_num [CurrencyFreaks.fetchRateForDate, CurrencyFreaks.jsRound,
          (by decide : ¬ ("2025-03-02" : String) = "2025-03-01")])⟩

namespace CryptoTsv

theorem dates_perm_of_perm {l l2 : List CryptoRateEntry} (h : List.Perm l l2) :
    List.Perm (dates l) (dates l2) := by
  simpa only [dates] using h.map (fun e => e.date)

theorem nodup_dates_sortByKey {l : List CryptoRateEntry} (h : (dates l).Nodup) :
    (dates (sortByKey (fun e => e.date) l)).Nodup :=
  ((dates_perm_of_perm (sortByKey_perm (fun e => e.date) l)).nodup_iff).mpr h

theorem eq_of_mem_of_nodup_dates {l : List CryptoRateEntry} (h : (dates l).Nodup)
    {x y : CryptoRateEntry} (hx : x ∈ l) (hy : y ∈ l) (hxy : x.date = y.date) :
    x = y := by
  have h1 : mapGet l y.date = some x := (mapGet_eq_some_iff h).mpr ⟨hx, hxy⟩
  have h2 : mapGet l y.date = some y := (mapGet_eq_some_iff h).mpr ⟨hy, rfl⟩
  rw [h1] at h2
  exact Option.some_inj.mp h2

theorem nodup_dates_mergeEntries_map (E N : List CryptoRateEntry) (tm : String) :
    (dates (N.foldl (mergeStep tm) ⟨buildMap E, 0⟩).map).Nodup :=
  nodup_dates_mergeFold N _ (nodup_dates_buildMap E)

theorem nodup_dates_mergeEntries (E N : List CryptoRateEntry) (tm : String) :
    (dates (mergeEntries E N tm).mergedEntries).Nodup :=
  nodup_dates_sortByKey (nodup_dates_mergeEntries_map E N tm)

/-- C2: the crypto merge engine never produces duplicate dates: for every
existing series, every list of new observations (duplicate dates
included), and every target month, the merged output contains each date
at most once. -/
theorem mergeEntries_no_duplicate_dates (E N : List CryptoRateEntry) (tm : String) :
    (dates (mergeEntries E N tm).mergedEntries).Nodup :=
  nodup_dates_mergeEntries E N tm

theorem mergeStep_get_outside {tm : String} (acc : MergeAcc) (n : CryptoRateEntry)
    {d : String} (hd : strStartsWith d tm = false) :
    mapGet (mergeStep tm acc n).map d = mapGet acc.map d := by
  by_cases hs : strStartsWith n.date tm = true
  · have hne : d ≠ n.date := fun h => by rw [h, hs] at hd; cases hd
    exact mergeStep_get_ne acc n hne
  · rw [mergeStep, if_pos (by simp_all)]

theorem mergeFold_get_outside {tm : String} (N : List CryptoRateEntry)
    {d : String} (hd : strStartsWith d tm = false) (acc : MergeAcc) :
    mapGet (N.foldl (mergeStep tm) acc).map d = mapGet acc.map d := by
  induction N generalizing acc with
  | nil => rfl
  | cons n ns ih => rw [List.foldl_cons, ih _, mergeStep_get_outside acc n hd]

/-- C8: scope containment of the full-overwrite crypto merge: an existing
entry whose date lies outside the target month appears unchanged in the
merged output — it is the only entry at its date — no matter what the
new observations contain for that date. -/
theorem mergeEntries_scope_containment (E N : List CryptoRateEntry) (tm : String)
    (hE : (dates E).Nodup) (e : CryptoRateEntry) (he : e ∈ E)
    (hout : strStartsWith e.date tm = false) :
    e ∈ (mergeEntries E N tm).mergedEntries ∧
      ∀ x ∈ (mergeEntries E N tm).mergedEntries, x.date = e.date → x = e := by
  have hbuild : buildMap E = E := buildMap_eq_self hE
  have hgetE : mapGet E e.date = some e := (mapGet_eq_some_iff hE).mpr ⟨he, rfl⟩
  have hgetM : mapGet (N.foldl (mergeStep tm) ⟨buildMap E, 0⟩).map e.date = some e := by
    rw [mergeFold_get_outside N hout _]
    simpa [hbuild] using hgetE
  have hnodupM := nodup_dates_mergeEntries_map E N tm
  have hmemM : e ∈ (N.foldl (mergeStep tm) ⟨buildMap E, 0⟩).map :=
    ((mapGet_eq_some_iff hnodupM).mp hgetM).1
  have hperm := sortByKey_perm (fun x => x.date) (N.foldl (mergeStep tm) ⟨buildMap E, 0⟩).map
  have hmem : e ∈ (mergeEntries E N tm).mergedEntries := hperm.mem_iff.mpr hmemM
  refine ⟨hmem, fun x hx hxd => ?_⟩
  exact eq_of_mem_of_nodup_dates (nodup_dates_mergeEntries E N tm) hx hmem hxd

/-- C8 witness: a January entry survives, unchanged and unique, a merge
scoped to February that reports a conflicting January value. -/
theorem mergeEntries_scope_containment_witness :
    ((⟨"2025-01-05", 7⟩ : CryptoRateEntry) ∈
        (mergeEntries [⟨"2025-01-05", 7⟩] [⟨"2025-01-05", 9⟩] "2025-02").mergedEntries) ∧
      ∀ x ∈ (mergeEntries [⟨"2025-01-05", 7⟩] [⟨"2025-01-05", 9⟩] "2025-02").mergedEntries,
        x.date = ("2025-01-05" : String) → x = ⟨"2025-01-05", 7⟩ :=
  mergeEntries_scope_containment [⟨"2025-01-05", 7⟩] [⟨"2025-01-05", 9⟩] "2025-02"
    (by decide) ⟨"2025-01-05", 7⟩ (by decide) (by decide)

end CryptoTsv

/-- C2 counterexample: the concat-based forex merge and the fill-only
crypto merge both emit the same date twice when a new entry repeats an
existing date (for fill-only, a date outside the target month), so the
claim is false for those merge revisions. -/
theorem mergeEntries_duplicate_dates_cex :
    (ForexAppend.mergeEntries [⟨"2025-02-01", 1⟩] [⟨"2025-02-01", 2⟩]).map
        (fun e => e.date) = ["2025-02-01", "2025-02-01"] ∧
      ¬ ((ForexAppend.mergeEntries [⟨"2025-02-01", 1⟩] [⟨"2025-02-01", 2⟩]).map
          (fun e => e.date)).Nodup ∧
      ¬ ((CryptoFill.mergeEntries [⟨"2025-01-05", 7⟩] [⟨"2025-01-05", 9⟩] "2025-02").map
          (fun e => e.date)).Nodup := by
  refine ⟨by decide, by decide, by decide⟩

namespace CryptoTsv

theorem updateTsvFile_of_changedCount_zero (E N : List CryptoRateEntry) (y m : Nat)
    (h : (mergeEntries E N (targetMonthStr y m)).changedCount = 0) :
    updateTsvFile E N y m = ⟨0, none⟩ := by
  rw [updateTsvFile]
  split
  · rfl
  · simp only [h, if_pos]

/-- C3 (amended): the crypto `updateTsvFile` honours the skip: whenever
the merge reports `changedCount = 0` (no value changed, no date added),
no write is performed and a zero count is returned, so the caller can
report "no changes" distinctly from "updated". -/
theorem updateTsvFile_skips_write_when_unchanged (E N : List CryptoRateEntry) (y m : Nat)
    (h : (mergeEntries E N (targetMonthStr y m)).changedCount = 0) :
    (updateTsvFile E N y m).written = none ∧
      (updateTsvFile E N y m).newEntriesCount = 0 := by
  rw [updateTsvFile_of_changedCount_zero E N y m h]
  exact ⟨rfl, rfl⟩

/-- C3 witness: re-reporting an identical February value changes nothing
and triggers no write. -/
theorem updateTsvFile_skips_write_when_unchanged_witness :
    (updateTsvFile [⟨"2025-02-01", 1⟩] [⟨"2025-02-01", 1⟩] 2025 2).written = none ∧
      (updateTsvFile [⟨"2025-02-01", 1⟩] [⟨"2025-02-01", 1⟩] 2025 2).newEntriesCount = 0 :=
  updateTsvFile_skips_write_when_unchanged [⟨"2025-02-01", 1⟩] [⟨"2025-02-01", 1⟩] 2025 2
    (by decide)

end CryptoTsv

/-- C3 counterexample: the forex `updateTsvFile` does not skip: with an
input that changes no value and adds no date (the merge returns the
existing series unchanged), it still writes the file and reports a count
of 1, so the claim is false for the forex revision. -/
theorem forex_updateTsvFile_writes_when_unchanged_cex :
    ForexTsv.mergeEntries [⟨"2025-02-01", 1⟩] [⟨"2025-02-01", 1⟩] = [⟨"2025-02-01", 1⟩] ∧
      (ForexTsv.updateTsvFile [⟨"2025-02-01", 1⟩] [⟨"2025-02-01", 1⟩]).written =
        some [⟨"2025-02-01", 1⟩] ∧
      (ForexTsv.updateTsvFile [⟨"2025-02-01", 1⟩] [⟨"2025-02-01", 1⟩]).newEntriesCount = 1 := by
  refine ⟨by decide, by decide, by decide⟩

namespace CryptoTsv

/-- C1 (amended): the crypto fetch-and-merge pipeline is idempotent at
the store level: for every existing series and every list of new entries
with pairwise-distinct dates (as produced by the response normalizer), a
second `updateTsvFile` call on the series persisted by the first call
with the same new entries reports zero new entries and performs no
write. -/
theorem updateTsvFile_second_run_no_write (E N : List CryptoRateEntry) (y m : Nat)
    (hN : (dates N).Nodup) :
    (updateTsvFile ((updateTsvFile E N y m).written.getD E) N y m).written = none ∧
      (updateTsvFile ((updateTsvFile E N y m).written.getD E) N y m).newEntriesCount = 0 := by
  by_cases hlen : N.length = 0
  · constructor <;> simp [updateTsvFile, hlen]
  · by_cases hc : (mergeEntries E N (targetMonthStr y m)).changedCount = 0
    · have h1 := updateTsvFile_of_changedCount_zero E N y m hc
      rw [h1]
      simp only [Option.getD_none]
      rw [updateTsvFile_of_changedCount_zero E N y m hc]
      exact ⟨rfl, rfl⟩
    · have hw : updateTsvFile E N y m =
          ⟨(mergeEntries E N (targetMonthStr y m)).changedCount,
            some (mergeEntries E N (targetMonthStr y m)).mergedEntries⟩ := by
        simp only [updateTsvFile, if_neg hlen, if_neg hc]
      rw [hw]
      simp only [Option.getD_some]
      have hnodupM := nodup_dates_mergeEntries_map E N (targetMonthStr y m)
      have hnodupS := nodup_dates_mergeEntries E N (targetMonthStr y m)
      have hperm : List.Perm (mergeEntries E N (targetMonthStr y m)).mergedEntries
          (N.foldl (mergeStep (targetMonthStr y m)) ⟨buildMap E, 0⟩).map :=
        sortByKey_perm _ _
      have hget : ∀ n ∈ N, strStartsWith n.date (targetMonthStr y m) = true →
          mapGet (mergeEntries E N (targetMonthStr y m)).mergedEntries n.date = some n := by
        intro n hmem hs
        have h1 := mergeFold_get_self hN hmem hs ⟨buildMap E, 0⟩
        have h2 := ((mapGet_eq_some_iff hnodupM).mp h1).1
        exact (mapGet_eq_some_iff hnodupS).mpr ⟨hperm.mem_iff.mpr h2, rfl⟩
      have hmerge2 : (mergeEntries (mergeEntries E N (targetMonthStr y m)).mergedEntries N
          (targetMonthStr y m)).changedCount = 0 := by
        have hS := hnodupS
        simp only [mergeEntries] at hS hget ⊢
        rw [buildMap_eq_self hS, mergeFold_const hget]
      rw [updateTsvFile_of_changedCount_zero _ N y m hmerge2]
      exact ⟨rfl, rfl⟩

/-- C1 witness: a concrete second run over the file produced by a first
run with the same single new entry reports zero and does not write. -/
theorem updateTsvFile_second_run_no_write_witness :
    (updateTsvFile
        ((updateTsvFile [⟨"2025-01-05", 7⟩] [⟨"2025-02-01", 1⟩] 2025 2).written.getD
          [⟨"2025-01-05", 7⟩])
        [⟨"2025-02-01", 1⟩] 2025 2).written = none ∧
      (updateTsvFile
          ((updateTsvFile [⟨"2025-01-05", 7⟩] [⟨"2025-02-01", 1⟩] 2025 2).written.getD
            [⟨"2025-01-05", 7⟩])
          [⟨"2025-02-01", 1⟩] 2025 2).newEntriesCount = 0 :=
  updateTsvFile_second_run_no_write [⟨"2025-01-05", 7⟩] [⟨"2025-02-01", 1⟩] 2025 2 (by decide)

end CryptoTsv

/-- C1 counterexample: the forex `updateTsvFile` is not idempotent in the
claimed sense: a second run over the file produced by a first run with
the same single new entry still reports 1 new entry and performs a
write; in the earlier append revision the second write even differs from
the first (a duplicated row), so the persisted file is not byte-identical
either.  The claim as stated is therefore false for the forex pipeline. -/
theorem forex_updateTsvFile_not_idempotent_cex :
    ¬ ((ForexTsv.updateTsvFile
          ((ForexTsv.updateTsvFile [] [⟨"2025-02-01", 1⟩]).written.getD [])
          [⟨"2025-02-01", 1⟩]).newEntriesCount = 0 ∧
        (ForexTsv.updateTsvFile
            ((ForexTsv.updateTsvFile [] [⟨"2025-02-01", 1⟩]).written.getD [])
            [⟨"2025-02-01", 1⟩]).written = none) ∧
      (ForexAppend.updateTsvFile
          ((ForexAppend.updateTsvFile [] [⟨"2025-02-01", 1⟩]).written.getD [])
          [⟨"2025-02-01", 1⟩]).written ≠
        (ForexAppend.updateTsvFile [] [⟨"2025-02-01", 1⟩]).written := by
  refine ⟨by decide, by decide⟩

theorem daysInMonth_pos (y m : Nat) : 1 ≤ daysInMonth y m := by
  rw [daysInMonth]
  split
  · split <;> omega
  · split <;> omega

theorem daysInYear_ge (y : Nat) : 365 ≤ daysInYear y := by
  rw [daysInYear]; split <;> omega

theorem daysBeforeMonth_succ (y : Nat) :
    ∀ m, 1 ≤ m → daysBeforeMonth y (m + 1) = daysBeforeMonth y m + daysInMonth y m
  | 0, h => absurd h (by omega)
  | _ + 1, _ => rfl

theorem daysBeforeMonth_twelve (y : Nat) :
    daysBeforeMonth y 12 + 31 = daysInYear y := by
  have e12 : daysBeforeMonth y 12 = daysBeforeMonth y 11 + daysInMonth y 11 :=
    daysBeforeMonth_succ y 11 (by omega)
  have e11 : daysBeforeMonth y 11 = daysBeforeMonth y 10 + daysInMonth y 10 :=
    daysBeforeMonth_succ y 10 (by omega)
  have e10 : daysBeforeMonth y 10 = daysBeforeMonth y 9 + daysInMonth y 9 :=
    daysBeforeMonth_succ y 9 (by omega)
  have e9 : daysBeforeMonth y 9 = daysBeforeMonth y 8 + daysInMonth y 8 :=
    daysBeforeMonth_succ y 8 (by omega)
  have e8 : daysBeforeMonth y 8 = daysBeforeMonth y 7 + daysInMonth y 7 :=
    daysBeforeMonth_succ y 7 (by omega)
  have e7 : daysBeforeMonth y 7 = daysBeforeMonth y 6 + daysInMonth y 6 :=
    daysBeforeMonth_succ y 6 (by omega)
  have e6 : daysBeforeMonth y 6 = daysBeforeMonth y 5 + daysInMonth y 5 :=
    daysBeforeMonth_succ y 5 (by omega)
  have e5 : daysBeforeMonth y 5 = daysBeforeMonth y 4 + daysInMonth y 4 :=
    daysBeforeMonth_succ y 4 (by omega)
  have e4 : daysBeforeMonth y 4 = daysBeforeMonth y 3 + daysInMonth y 3 :=
    daysBeforeMonth_succ y 3 (by omega)
  have e3 : daysBeforeMonth y 3 = daysBeforeMonth y 2 + daysInMonth y 2 :=
    daysBeforeMonth_succ y 2 (by omega)
  have e2 : daysBeforeMonth y 2 = daysBeforeMonth y 1 + daysInMonth y 1 :=
    daysBeforeMonth_succ y 1 (by omega)
  have e1 : daysBeforeMonth y 1 = 0 := rfl
  have h1 : daysInMonth y 1 = 31 := rfl
  have h3 : daysInMonth y 3 = 31 := rfl
  have h4 : daysInMonth y 4 = 30 := rfl
  have h5 : daysInMonth y 5 = 31 := rfl
  have h6 : daysInMonth y 6 = 30 := rfl
  have h7 : daysInMonth y 7 = 31 := rfl
  have h8 : daysInMonth y 8 = 31 := rfl
  have h9 : daysInMonth y 9 = 30 := rfl
  have h10 : daysInMonth y 10 = 31 := rfl
  have h11 : daysInMonth y 11 = 30 := rfl
  cases h : isLeapYear y
  · have h2 : daysInMonth y 2 = 28 := by simp [daysInMonth, h]
    have hYr : daysInYear y = 365 := by simp [daysInYear, h]
    omega
  · have h2 : daysInMonth y 2 = 29 := by simp [daysInMonth, h]
    have hYr : daysInYear y = 366 := by simp [daysInYear, h]
    omega

theorem daysOfYearsFrom1970_succ (n : Nat) :
    daysOfYearsFrom1970 (n + 1) = daysOfYearsFrom1970 n + daysInYear (1970 + n) := rfl

theorem daysBeforeYear_succ {y : Nat} (hy : 1970 ≤ y) :
    daysBeforeYear (y + 1) = daysBeforeYear y + daysInYear y := by
  rw [daysBeforeYear, daysBeforeYear]
  have h1 : y + 1 - 1970 = (y - 1970) + 1 := by omega
  rw [h1, daysOfYearsFrom1970_succ]
  have h2 : 1970 + (y - 1970) = y := by omega
  rw [h2]

theorem one_le_daysBeforeYear {y : Nat} (hy : 1970 < y) : 1 ≤ daysBeforeYear y := by
  rw [daysBeforeYear]
  have h1 : y - 1970 = (y - 1971) + 1 := by omega
  rw [h1, daysOfYearsFrom1970_succ]
  have h2 := daysInYear_ge (1970 + (y - 1971))
  omega

theorem daysSinceEpoch_predDay {d : Date} (hm1 : 1 ≤ d.month) (hm2 : d.month ≤ 12)
    (hd1 : 1 ≤ d.day) (hy : 1970 < d.year) :
    daysSinceEpoch (predDay d) + 1 = daysSinceEpoch d := by
  by_cases h2 : 1 < d.day
  · rw [predDay, if_pos h2]
    simp only [daysSinceEpoch]
    omega
  · have hd : d.day = 1 := by omega
    by_cases hm : 1 < d.month
    · rw [predDay, if_neg (by omega), if_pos hm]
      simp only [daysSinceEpoch, hd]
      have hpos := daysInMonth_pos d.year (d.month - 1)
      have hsucc := daysBeforeMonth_succ d.year (d.month - 1) (by omega)
      have hmm : d.month - 1 + 1 = d.month := by omega
      rw [hmm] at hsucc
      omega
    · have hm1eq : d.month = 1 := by omega
      rw [predDay, if_neg (by omega), if_neg (by omega)]
      simp only [daysSinceEpoch, hd, hm1eq]
      have h12 := daysBeforeMonth_twelve (d.year - 1)
      have hys := daysBeforeYear_succ (y := d.year - 1) (by omega)
      have hyy : d.year - 1 + 1 = d.year := by omega
      rw [hyy] at hys
      have hbm1 : daysBeforeMonth d.year 1 = 0 := rfl
      omega

theorem one_le_daysSinceEpoch {d : Date} (hy : 1970 < d.year) :
    1 ≤ daysSinceEpoch d := by
  have := one_le_daysBeforeYear hy
  rw [daysSinceEpoch]
  omega

theorem rollOver_day_one (y2 m2 : Nat) : rollOver ⟨y2, m2, 1⟩ = ⟨y2, m2, 1⟩ := by
  simp only [rollOver]
  rw [if_pos]
  exact daysInMonth_pos y2 m2

theorem startOfMonthFor_day_one (now : Date) (h1 : now.day = 1) (year month : Nat) :
    startOfMonthFor now year month = ⟨year, month, 1⟩ := by
  have hy : setYear now year = ⟨year, now.month, 1⟩ := by
    unfold setYear
    rw [h1]
    exact rollOver_day_one year now.month
  have hm : setMonth (⟨year, now.month, 1⟩ : Date) month = ⟨year, month, 1⟩ := by
    unfold setMonth
    exact rollOver_day_one year month
  unfold startOfMonthFor
  rw [hy, hm]

/-- C7 (amended): when the computed window is empty or inverted — the
requested month is the current month on its first UTC day, so the end
bound "yesterday, end of day" precedes the start of the month — the
date-range calculators return the degenerate window instead of failing:
`calculateDateRange` returns `toTimestamp < fromTimestamp` and
`getDatesInMonth` returns the empty date list; neither has any error
path, and no `NoValidRange` error exists in the code. -/
theorem calculateDateRange_first_day_degenerate (now : Date)
    (hm1 : 1 ≤ now.month) (hm2 : now.month ≤ 12) (hd : now.day = 1) (hy : 1970 < now.year) :
    (Coingecko.calculateDateRange now now.year now.month).toTimestamp <
      (Coingecko.calculateDateRange now now.year now.month).fromTimestamp ∧
    CurrencyFreaks.getDatesInMonth now now.year now.month = [] := by
  have hstart := startOfMonthFor_day_one now hd now.year now.month
  have hnoweq : now = ⟨now.year, now.month, 1⟩ := by
    cases now
    simp_all
  have hpred : daysSinceEpoch (predDay now) + 1 = daysSinceEpoch now :=
    daysSinceEpoch_predDay hm1 hm2 (by omega) hy
  have hpos : 1 ≤ daysSinceEpoch now := one_le_daysSinceEpoch hy
  constructor
  · simp only [Coingecko.calculateDateRange, hstart, and_self, ite_true]
    rw [← hnoweq]
    omega
  · simp only [CurrencyFreaks.getDatesInMonth, hstart, and_self, ite_true]
    rw [← hnoweq]
    have hn : daysSinceEpoch (predDay now) + 1 - daysSinceEpoch now = 0 := by omega
    rw [hn]
    rfl

/-- C7 witness: on 2025-03-01, requesting 2025-03 yields an inverted
window and an empty day list. -/
theorem calculateDateRange_first_day_degenerate_witness :
    (Coingecko.calculateDateRange ⟨2025, 3, 1⟩ 2025 3).toTimestamp <
      (Coingecko.calculateDateRange ⟨2025, 3, 1⟩ 2025 3).fromTimestamp ∧
    CurrencyFreaks.getDatesInMonth ⟨2025, 3, 1⟩ 2025 3 = [] :=
  calculateDateRange_first_day_degenerate ⟨2025, 3, 1⟩ (by decide) (by decide) rfl (by decide)

/-- C7 counterexample: requesting the current month on its first UTC day
(2025-03-01) does not fail with any `NoValidRange` error: the calculator
returns the inverted window `[2025-03-01T00:00:00Z, 2025-02-28T23:59:59Z]`
(`toTimestamp < fromTimestamp`), and `getDatesInMonth` returns the empty
list; both functions are total, so the claimed error is never raised. -/
theorem calculateDateRange_returns_degenerate_cex :
    Coingecko.calculateDateRange ⟨2025, 3, 1⟩ 2025 3 = ⟨1740787200, 1740787199⟩ ∧
      CurrencyFreaks.getDatesInMonth ⟨2025, 3, 1⟩ 2025 3 = [] := by
  refine ⟨by decide, by decide⟩
